import Mathlib

/-!
Shallow embedding of the molecular-geometry program in `src/src/main.rs`
(Crawford-project exercise: bond lengths, bond angles, out-of-plane angles
over a list of atoms), together with theorems settling the specification
claims.  `f64` values are modelled as real numbers `ℝ`; `i32` as `Int`;
`usize` as `Nat`; Rust `Result`/`io::Result` as `Except String`, carrying
the error message string the code constructs.  Rust `Vec` is modelled as
`List`, with in-place index assignment `v[i] = x` rendered as `List.set`
and indexing `v[i]` as `List.getD` (all accesses the code performs are
shown in-bounds, where it matters, by the theorems below).
-/

namespace Crawford

noncomputable section

/-- The `Ion` struct of the source: an atomic-number tag `z_val` and three
Cartesian coordinates. -/
structure Ion where
  z_val : Int
  x : ℝ
  y : ℝ
  z : ℝ

/-- The code initializes buffers with `Ion {z_val:-1,x:0.,y:0.,z:0.}`
(a negative tag marks an uninitialized record); we use the same record as
the default for modelling Rust indexing. -/
instance : Inhabited Ion := ⟨⟨-1, 0, 0, 0⟩⟩

/-- Rust `Ion::bond_length` (main.rs lines 80-85): Euclidean distance
`sqrt((x1-x2)^2 + (y1-y2)^2 + (z1-z2)^2)`. -/
def Ion.bond_length (self other : Ion) : ℝ :=
  Real.sqrt ((self.x - other.x) ^ 2 + (self.y - other.y) ^ 2 + (self.z - other.z) ^ 2)

/-- Rust `Ion::bond_vector` (main.rs lines 87-89): the displacement vector from
`self` to `other`, `(other.x-self.x, other.y-self.y, other.z-self.z)`. -/
def Ion.bond_vector (self other : Ion) : ℝ × ℝ × ℝ :=
  (other.x - self.x, other.y - self.y, other.z - self.z)

/-- Rust `Ion::bond_angle` (main.rs lines 91-96): the angle at vertex `ionj`
between the arms to `ioni` and `ionk`,
`acos((e_ji . e_jk) / (|j-i| * |j-k|))`.  Rust `f64::acos` is modelled by
`Real.arccos`. -/
def Ion.bond_angle (ioni ionj ionk : Ion) : ℝ :=
  let e_ji := ionj.bond_vector ioni
  let e_jk := ionj.bond_vector ionk
  Real.arccos ((e_ji.1 * e_jk.1 + e_ji.2.1 * e_jk.2.1 + e_ji.2.2 * e_jk.2.2)
    / (ionj.bond_length ioni * ionj.bond_length ionk))

/-- Rust `Ion::out_of_plane_angle` (main.rs lines 98-110): the scalar triple
product `r_ki . (r_kj x r_kl)` of displacements from `ionk`, divided by
`l_kj * l_kl * l_ki * sin(angle_jkl)`. -/
def Ion.out_of_plane_angle (ioni ionj ionk ionl : Ion) : ℝ :=
  let sin_phi_jkl := Real.sin (Ion.bond_angle ionj ionk ionl)
  let r_kj := ionk.bond_vector ionj
  let r_kl := ionk.bond_vector ionl
  let r_ki := ionk.bond_vector ioni
  let l_kj := ionk.bond_length ionj
  let l_kl := ionk.bond_length ionl
  let l_ki := ionk.bond_length ioni
  let scalar_triple := r_ki.1 * (r_kj.2.1 * r_kl.2.2 - r_kl.2.1 * r_kj.2.2)
                     - r_ki.2.1 * (r_kj.1 * r_kl.2.2 - r_kl.1 * r_kj.2.2)
                     + r_ki.2.2 * (r_kj.1 * r_kl.2.1 - r_kl.1 * r_kj.2.1)
  scalar_triple / (l_kj * l_kl * l_ki * sin_phi_jkl)

/-- The iteration sequence of the nested loop
`for i in 0..n { for j in 0..i { ... } }` of `all_bond_lengths`. -/
def pairList (n : Nat) : List (Nat × Nat) :=
  (List.range n).flatMap fun i => (List.range i).map fun j => (i, j)

/-- The iteration sequence of the triple loop
`for i in 0..n { for j in 0..i { for k in 0..j { ... } } }` of
`bond_angles`. -/
def tripleList (n : Nat) : List (Nat × Nat × Nat) :=
  (List.range n).flatMap fun i =>
    (List.range i).flatMap fun j =>
      (List.range j).map fun k => (i, j, k)

/-- The matrix write `m[i][j] = v` on a `Vec<Vec<f64>>`. -/
def setMat (m : List (List ℝ)) (i j : Nat) (v : ℝ) : List (List ℝ) :=
  m.set i ((m.getD i []).set j v)

/-- The matrix read `m[i][j]` on a `Vec<Vec<f64>>`. -/
def getE (m : List (List ℝ)) (i j : Nat) : ℝ :=
  (m.getD i []).getD j 0

/-- The body of the nested loop of `all_bond_lengths`
(main.rs lines 121-129): for the iteration pair `p = (i, j)`, if `i != j`
then `l = mol[i].bond_length(&mol[j]); lengths[i][j] = l;
lengths[j][i] = l;`. -/
def bl_step (mol : List Ion) (lengths : List (List ℝ)) (p : Nat × Nat) :
    List (List ℝ) :=
  if p.1 ≠ p.2 then
    let l := (mol.getD p.1 default).bond_length (mol.getD p.2 default)
    setMat (setMat lengths p.1 p.2 l) p.2 p.1 l
  else lengths

/-- Rust `all_bond_lengths` (main.rs lines 114-133): errors on `len <= 1`, else
fills the lower triangle of an `n x n` zero matrix with pairwise distances
and mirrors each entry to the upper triangle. -/
def all_bond_lengths (mol : List Ion) : Except String (List (List ℝ)) :=
  if mol.length ≤ 1 then
    Except.error ("No bonds in molecule")
  else
    Except.ok ((pairList mol.length).foldl (bl_step mol)
      (List.replicate mol.length (List.replicate mol.length 0)))

/-- The buffer size `(3*(len-2)^2 + (len-2)^3 + 2*(len-2))/6` that
`bond_angles` preallocates (main.rs line 142), in Nat arithmetic
(`-` is Rust `usize` subtraction, which agrees with Nat truncated
subtraction on these inputs). -/
def n_uniques (len : Nat) : Nat :=
  (3 * (len - 2) ^ 2 + (len - 2) ^ 3 + 2 * (len - 2)) / 6

/-- The record `(k, j, i, Ion::bond_angle(&mol[i], &mol[j], &mol[k]))`
written by the loop body of `bond_angles` (main.rs line 149) for the
iteration triple `t = (i, j, k)`. -/
def angleRecord (mol : List Ion) (t : Nat × Nat × Nat) : Nat × Nat × Nat × ℝ :=
  (t.2.2, t.2.1, t.1,
    Ion.bond_angle (mol.getD t.1 default) (mol.getD t.2.1 default)
      (mol.getD t.2.2 default))

/-- The body of the triple loop of `bond_angles` (main.rs lines 145-154):
for the iteration triple `t = (i, j, k)`, if `!(i==j||j==k||i==k)` then
`angles[angle_index] = (k,j,i,Ion::bond_angle(&mol[i],&mol[j],&mol[k]));
angle_index += 1;`.  The state is the pair (buffer, angle_index). -/
def ba_step (mol : List Ion)
    (st : List (Nat × Nat × Nat × ℝ) × Nat) (t : Nat × Nat × Nat) :
    List (Nat × Nat × Nat × ℝ) × Nat :=
  if ¬(t.1 = t.2.1 ∨ t.2.1 = t.2.2 ∨ t.1 = t.2.2) then
    (st.1.set st.2 (angleRecord mol t), st.2 + 1)
  else st

/-- Rust `bond_angles` (main.rs lines 135-157): errors on `len <= 2`, else
preallocates a buffer of `n_uniques len` placeholder records `(0,0,0,0.)`
and overwrites it in the triple-loop order via `ba_step`. -/
def bond_angles (mol : List Ion) :
    Except String (List (Nat × Nat × Nat × ℝ)) :=
  if mol.length ≤ 2 then
    Except.error ("too few ions for bond angles")
  else
    Except.ok (((tripleList mol.length).foldl (ba_step mol)
      (List.replicate (n_uniques mol.length) (0, 0, 0, (0 : ℝ)), 0)).1)

/-- The wrapping `usize as i32` cast the source applies to
`lines.len()-1` (main.rs line 20): keep the low 32 bits and reinterpret
them as a two's-complement `i32`. -/
def as_i32 (n : Nat) : Int :=
  if n % 2 ^ 32 < 2 ^ 31 then ((n % 2 ^ 32 : Nat) : Int)
  else ((n % 2 ^ 32 : Nat) : Int) - 2 ^ 32

/-- The per-file processing of `main` (main.rs lines 14-56) after the
external parsing collaborator has produced the declared atom count
`natoms` (an `i32`) and the typed records `ions` (one per data line, so
`ions.length` is `lines.len()-1`): first the record-count check
`(lines.len()-1) as i32 != natoms` of lines 20-27 — the cast wraps, per
`as_i32` — then the two geometry computations, whose errors `main` turns
into panics via `.unwrap()`. -/
def process_file (natoms : Int) (ions : List Ion) :
    Except String (List (List ℝ) × List (Nat × Nat × Nat × ℝ)) :=
  if as_i32 ions.length ≠ natoms then
    Except.error ("Number of atoms != number of data points")
  else
    match all_bond_lengths ions, bond_angles ions with
    | Except.ok bl, Except.ok ba => Except.ok (bl, ba)
    | _, _ => Except.error ("panicked at unwrap on geometry result")

/-! ### Structure of the loop iteration sequences -/

/-- Unfolding `pairList` at a successor: the outer loop body for `i = n`
comes last. -/
lemma pairList_succ (n : Nat) :
    pairList (n + 1) = pairList n ++ (List.range n).map fun j => (n, j) := by
  simp [pairList, List.range_succ, List.flatMap_append]

/-- Unfolding `tripleList` at a successor: the outer loop body for `i = n`
is the pair sequence on `n`, tagged with `n` in front. -/
lemma tripleList_succ (n : Nat) :
    tripleList (n + 1) =
      tripleList n ++ (pairList n).map fun p => (n, p.1, p.2) := by
  simp [tripleList, pairList, List.range_succ, List.flatMap_append,
    List.map_flatMap, List.map_map]
  rfl

lemma mem_pairList {n i j : Nat} : (i, j) ∈ pairList n ↔ j < i ∧ i < n := by
  simp only [pairList, List.mem_flatMap, List.mem_map, List.mem_range,
    Prod.mk.injEq]
  constructor
  · rintro ⟨a, ha, b, hb, rfl, rfl⟩
    exact ⟨hb, ha⟩
  · rintro ⟨hj, hi⟩
    exact ⟨i, hi, j, hj, rfl, rfl⟩

lemma mem_tripleList {n i j k : Nat} :
    (i, j, k) ∈ tripleList n ↔ i < n ∧ j < i ∧ k < j := by
  simp only [tripleList, List.mem_flatMap, List.mem_map, List.mem_range,
    Prod.mk.injEq]
  constructor
  · rintro ⟨a, ha, b, hb, c, hc, rfl, rfl, rfl⟩
    exact ⟨ha, hb, hc⟩
  · rintro ⟨hi, hj, hk⟩
    exact ⟨i, hi, j, hj, k, hk, rfl, rfl, rfl⟩

lemma pairList_length (n : Nat) : (pairList n).length = n.choose 2 := by
  induction n with
  | zero => rfl
  | succ n ih =>
    rw [pairList_succ, List.length_append, ih, List.length_map,
      List.length_range]
    have h : (n + 1).choose 2 = n.choose 1 + n.choose 2 :=
      Nat.choose_succ_succ n 1
    have h1 := Nat.choose_one_right n
    omega

lemma tripleList_length (n : Nat) : (tripleList n).length = n.choose 3 := by
  induction n with
  | zero => rfl
  | succ n ih =>
    rw [tripleList_succ, List.length_append, ih, List.length_map,
      pairList_length]
    have h : (n + 1).choose 3 = n.choose 2 + n.choose 3 :=
      Nat.choose_succ_succ n 2
    omega

/-- The preallocation size `(3*(len-2)^2 + (len-2)^3 + 2*(len-2))/6`
(the trigonal-pyramidal-number comment in the source) is the binomial
coefficient `C(len, 3)`. -/
lemma n_uniques_eq_choose (n : Nat) : n_uniques n = n.choose 3 := by
  match n with
  | 0 => rfl
  | 1 => rfl
  | (m + 2) =>
    have hd : (m + 2).descFactorial 3 = 3 * m ^ 2 + m ^ 3 + 2 * m := by
      simp [Nat.descFactorial]
      ring
    rw [n_uniques, Nat.choose_eq_descFactorial_div_factorial, hd]
    rfl

lemma pairList_nodup (n : Nat) : (pairList n).Nodup := by
  induction n with
  | zero => exact List.nodup_nil
  | succ n ih =>
    rw [pairList_succ]
    refine List.Nodup.append ih ?_ ?_
    · exact (List.nodup_range n).map fun a b h => by
        simpa using congrArg Prod.snd h
    · rw [List.disjoint_left]
      rintro ⟨a, b⟩ hmem hmem2
      rcases mem_pairList.mp hmem with ⟨_, ha⟩
      rcases List.mem_map.mp hmem2 with ⟨c, _, hc⟩
      rcases Prod.mk.injEq .. ▸ hc with ⟨h1, _⟩
      omega

lemma tripleList_nodup (n : Nat) : (tripleList n).Nodup := by
  induction n with
  | zero => exact List.nodup_nil
  | succ n ih =>
    rw [tripleList_succ]
    refine List.Nodup.append ih ?_ ?_
    · exact (pairList_nodup n).map fun a b h => by
        simpa [Prod.ext_iff] using congrArg Prod.snd h
    · rw [List.disjoint_left]
      rintro ⟨a, b, c⟩ hmem hmem2
      rcases mem_tripleList.mp hmem with ⟨ha, _, _⟩
      rcases List.mem_map.mp hmem2 with ⟨p, _, hp⟩
      rcases Prod.mk.injEq .. ▸ hp with ⟨h1, _⟩
      omega

/-! ### The write-at-running-index fold fills its buffer exactly -/

lemma take_set_succ {α : Type _} (l : List α) (s : Nat) (v : α)
    (h : s < l.length) : (l.set s v).take (s + 1) = l.take s ++ [v] := by
  rw [List.set_eq_take_append_cons_drop, if_pos h]
  have hlen : (List.take s l).length = s := by
    rw [List.length_take]; omega
  calc (List.take s l ++ v :: List.drop (s + 1) l).take (s + 1)
      = (List.take s l ++ v :: List.drop (s + 1) l).take
          ((List.take s l).length + 1) := by rw [hlen]
    _ = List.take s l ++ (v :: List.drop (s + 1) l).take 1 :=
        List.take_append 1
    _ = List.take s l ++ [v] := by simp

/-- A left fold that writes `f x` at a running index, starting at slot `s`
of a buffer whose remaining space is exactly the length of the list,
replaces the tail of the buffer with `l.map f` and never writes out of
bounds. -/
lemma foldl_set_fill {α β : Type _} (f : α → β) (l : List α) (b : List β)
    (s : Nat) (h : b.length = s + l.length) :
    l.foldl (fun st x => (st.1.set st.2 (f x), st.2 + 1)) (b, s) =
      (b.take s ++ l.map f, s + l.length) := by
  induction l generalizing b s with
  | nil =>
    have hs : s = b.length := by simpa using h.symm
    subst hs
    simp [List.take_length]
  | cons x xs ih =>
    have hlen : b.length = s + xs.length + 1 := by
      rw [h, List.length_cons]; omega
    have hlt : s < b.length := by omega
    rw [List.foldl_cons]
    have hb : (b.set s (f x)).length = (s + 1) + xs.length := by
      rw [List.length_set]; omega
    rw [ih (b.set s (f x)) (s + 1) hb, take_set_succ b s (f x) hlt]
    simp only [Prod.mk.injEq, List.map_cons]
    constructor
    · rw [List.append_assoc]; rfl
    · omega

/-- The preallocated buffer of `bond_angles` is exactly filled by the
triple loop: the final buffer is the `angleRecord` map over the canonical
iteration sequence `tripleList`, and the final `angle_index` is the number
of iterations. -/
lemma ba_fold_eq (mol : List Ion) :
    (tripleList mol.length).foldl (ba_step mol)
      (List.replicate (n_uniques mol.length) (0, 0, 0, (0 : ℝ)), 0) =
      ((tripleList mol.length).map (angleRecord mol),
        (tripleList mol.length).length) := by
  have hfold : (tripleList mol.length).foldl (ba_step mol)
      (List.replicate (n_uniques mol.length) (0, 0, 0, (0 : ℝ)), 0) =
      (tripleList mol.length).foldl
        (fun st t => (st.1.set st.2 (angleRecord mol t), st.2 + 1))
        (List.replicate (n_uniques mol.length) (0, 0, 0, (0 : ℝ)), 0) := by
    apply List.foldl_ext
    intro st t ht
    rcases t with ⟨i, j, k⟩
    rcases mem_tripleList.mp ht with ⟨_, hj, hk⟩
    have hne : ¬(i = j ∨ j = k ∨ i = k) := by
      simp only [not_or]; omega
    rw [ba_step, if_pos hne]
  have hlen : (List.replicate (n_uniques mol.length)
      ((0, 0, 0, (0 : ℝ)) : Nat × Nat × Nat × ℝ)).length =
      0 + (tripleList mol.length).length := by
    rw [List.length_replicate, tripleList_length, n_uniques_eq_choose]
    omega
  rw [hfold, foldl_set_fill (angleRecord mol) (tripleList mol.length) _ 0 hlen]
  simp

/-- For three or more atoms, `bond_angles` succeeds with the `angleRecord`
map over the canonical iteration sequence. -/
lemma bond_angles_eq (mol : List Ion) (h : 3 ≤ mol.length) :
    bond_angles mol =
      Except.ok ((tripleList mol.length).map (angleRecord mol)) := by
  have hn : ¬ mol.length ≤ 2 := by omega
  rw [bond_angles, if_neg hn, ba_fold_eq]

/-- Each `ba_step` increases `angle_index` by at most one, so the index
after any run is bounded by the number of iterations performed. -/
lemma ba_fold_snd_le (mol : List Ion) (l : List (Nat × Nat × Nat))
    (st : List (Nat × Nat × Nat × ℝ) × Nat) :
    (l.foldl (ba_step mol) st).2 ≤ st.2 + l.length := by
  induction l generalizing st with
  | nil => simp
  | cons t l ih =>
    rw [List.foldl_cons]
    refine le_trans (ih (ba_step mol st t)) ?_
    have hstep : (ba_step mol st t).2 ≤ st.2 + 1 := by
      rw [ba_step]
      split_ifs <;> simp
    rw [List.length_cons]
    omega

/-! ### Geometry primitive algebra -/

/-- The function `bond_length` is symmetric in its two atoms. -/
lemma bond_length_comm (a b : Ion) : a.bond_length b = b.bond_length a := by
  rw [Ion.bond_length, Ion.bond_length]
  congr 1
  ring

/-! ### Entrywise analysis of the bond-length matrix loop -/

/-- Well-formedness of an `n x n` matrix value. -/
def WFmat (n : Nat) (m : List (List ℝ)) : Prop :=
  m.length = n ∧ ∀ row ∈ m, row.length = n

lemma WFmat_replicate (n : Nat) :
    WFmat n (List.replicate n (List.replicate n (0 : ℝ))) := by
  refine ⟨by simp, ?_⟩
  intro row hrow
  rw [List.eq_of_mem_replicate hrow]
  simp

/-- Reading any list after a point write, with defaults. -/
lemma getD_set {α : Type _} (l : List α) (i j : Nat) (v d : α) :
    (l.set i v).getD j d =
      if i = j ∧ i < l.length then v else l.getD j d := by
  rw [List.getD_eq_getElem?_getD, List.getD_eq_getElem?_getD,
    List.getElem?_set]
  by_cases hij : i = j
  · subst hij
    by_cases hlt : i < l.length
    · rw [if_pos rfl, if_pos hlt, if_pos ⟨rfl, hlt⟩, Option.getD_some]
    · rw [if_pos rfl, if_neg hlt, if_neg (by tauto),
        List.getElem?_eq_none (by omega)]
  · rw [if_neg hij, if_neg (by tauto)]

lemma getD_replicate_entry {α : Type _} (n j : Nat) (x d : α) :
    (List.replicate n x).getD j d = if j < n then x else d := by
  rw [List.getD_eq_getElem?_getD, List.getElem?_replicate]
  by_cases hj : j < n
  · rw [if_pos hj, if_pos hj, Option.getD_some]
  · rw [if_neg hj, if_neg hj, Option.getD_none]

lemma getE_replicate (n a b : Nat) :
    getE (List.replicate n (List.replicate n (0 : ℝ))) a b = 0 := by
  rw [getE, getD_replicate_entry]
  by_cases ha : a < n
  · rw [if_pos ha, getD_replicate_entry]
    by_cases hb : b < n
    · rw [if_pos hb]
    · rw [if_neg hb]
  · rw [if_neg ha]
    rfl

lemma getD_row {n : Nat} {m : List (List ℝ)} (hw : WFmat n m) {i : Nat}
    (hi : i < n) : (m.getD i []).length = n := by
  have hlt : i < m.length := hw.1 ▸ hi
  rw [List.getD_eq_getElem _ _ hlt]
  exact hw.2 _ (List.getElem_mem hlt)

lemma WFmat_setMat {n : Nat} {m : List (List ℝ)} (hw : WFmat n m)
    {a : Nat} (b : Nat) (ha : a < n) (v : ℝ) : WFmat n (setMat m a b v) := by
  refine ⟨by rw [setMat, List.length_set]; exact hw.1, ?_⟩
  intro row hrow
  rcases List.mem_or_eq_of_mem_set hrow with hmem | heq
  · exact hw.2 _ hmem
  · rw [heq, List.length_set]
    exact getD_row hw ha

/-- Reading after a single matrix write: the written cell holds the new
value, every other cell is unchanged. -/
lemma getE_setMat {n : Nat} {m : List (List ℝ)} (hw : WFmat n m)
    {a b : Nat} (ha : a < n) (hb : b < n) (v : ℝ) (i j : Nat) :
    getE (setMat m a b v) i j = if a = i ∧ b = j then v else getE m i j := by
  have hrow : (setMat m a b v).getD i [] =
      if a = i then (m.getD a []).set b v else m.getD i [] := by
    rw [setMat, getD_set]
    by_cases hai : a = i
    · rw [if_pos ⟨hai, hw.1 ▸ ha⟩, if_pos hai]
    · rw [if_neg (by tauto), if_neg hai]
  rw [getE, hrow]
  by_cases hai : a = i
  · subst hai
    rw [if_pos rfl, getD_set, getD_row hw ha]
    by_cases hbj : b = j
    · rw [if_pos ⟨hbj, hb⟩, if_pos ⟨rfl, hbj⟩]
    · rw [if_neg (by tauto), if_neg (by tauto)]
      rfl
  · rw [if_neg hai, if_neg (by tauto)]
    rfl

/-- Entrywise characterization of the `all_bond_lengths` write loop: after
folding `bl_step` over a list of strictly-lower-triangular in-range index
pairs, a cell holds the pairwise distance as soon as some processed pair
wrote it (directly or mirrored), and is otherwise untouched. -/
lemma foldl_bl_step_spec (mol : List Ion) (n : Nat)
    (ps : List (Nat × Nat)) (m : List (List ℝ)) :
    (∀ p ∈ ps, p.2 < p.1 ∧ p.1 < n) → WFmat n m →
    WFmat n (ps.foldl (bl_step mol) m) ∧
    ∀ a b, a < n → b < n →
      getE (ps.foldl (bl_step mol) m) a b =
        if ∃ p ∈ ps, (p.1 = a ∧ p.2 = b) ∨ (p.1 = b ∧ p.2 = a) then
          (mol.getD a default).bond_length (mol.getD b default)
        else getE m a b := by
  induction ps generalizing m with
  | nil =>
    intro _ hw
    exact ⟨hw, by simp⟩
  | cons p ps ih =>
    intro hps hw
    rcases p with ⟨i, j⟩
    have hij := hps (i, j) (List.mem_cons_self _ _)
    simp only at hij
    have hi : i < n := hij.2
    have hj : j < n := lt_trans hij.1 hij.2
    have hne : i ≠ j := by omega
    have hstep : bl_step mol m (i, j) =
        setMat (setMat m i j ((mol.getD i default).bond_length
          (mol.getD j default))) j i
          ((mol.getD i default).bond_length (mol.getD j default)) := by
      rw [bl_step, if_pos (by simpa using hne)]
    have hw1 : WFmat n (bl_step mol m (i, j)) := by
      rw [hstep]
      exact WFmat_setMat (WFmat_setMat hw j hi _) i hj _
    obtain ⟨hw2, hval⟩ :=
      ih (bl_step mol m (i, j)) (fun q hq => hps q (List.mem_cons_of_mem _ hq))
        hw1
    refine ⟨by rw [List.foldl_cons]; exact hw2, ?_⟩
    intro a b ha hb
    rw [List.foldl_cons, hval a b ha hb]
    by_cases htail : ∃ p ∈ ps, (p.1 = a ∧ p.2 = b) ∨ (p.1 = b ∧ p.2 = a)
    · have hhead : ∃ p ∈ (i, j) :: ps,
          (p.1 = a ∧ p.2 = b) ∨ (p.1 = b ∧ p.2 = a) := by
        obtain ⟨q, hq, hcase⟩ := htail
        exact ⟨q, List.mem_cons_of_mem _ hq, hcase⟩
      rw [if_pos htail, if_pos hhead]
    · rw [if_neg htail, hstep,
        getE_setMat (WFmat_setMat hw j hi _) hj hi _ a b,
        getE_setMat hw hi hj _ a b]
      by_cases h2 : j = a ∧ i = b
      · have hhead : ∃ p ∈ (i, j) :: ps,
            (p.1 = a ∧ p.2 = b) ∨ (p.1 = b ∧ p.2 = a) :=
          ⟨(i, j), List.mem_cons_self _ _, Or.inr ⟨h2.2, h2.1⟩⟩
        rw [if_pos h2, if_pos hhead, ← h2.1, ← h2.2]
        exact (bond_length_comm _ _).symm
      · rw [if_neg h2]
        by_cases h1 : i = a ∧ j = b
        · have hhead : ∃ p ∈ (i, j) :: ps,
              (p.1 = a ∧ p.2 = b) ∨ (p.1 = b ∧ p.2 = a) :=
            ⟨(i, j), List.mem_cons_self _ _, Or.inl h1⟩
          rw [if_pos h1, if_pos hhead, ← h1.1, ← h1.2]
        · have hhead : ¬ ∃ p ∈ (i, j) :: ps,
              (p.1 = a ∧ p.2 = b) ∨ (p.1 = b ∧ p.2 = a) := by
            rintro ⟨q, hq, hcase⟩
            rcases List.mem_cons.mp hq with rfl | hq2
            · rcases hcase with hc | hc
              · exact h1 hc
              · exact h2 ⟨hc.2, hc.1⟩
            · exact htail ⟨q, hq2, hcase⟩
          rw [if_neg h1, if_neg hhead]

/-- For two or more atoms, `all_bond_lengths` succeeds and its result is
the full distance matrix: `n x n`, zero diagonal, and the pairwise
distance in every off-diagonal cell. -/
lemma all_bond_lengths_eq (mol : List Ion) (h : 2 ≤ mol.length) :
    ∃ M, all_bond_lengths mol = Except.ok M ∧ WFmat mol.length M ∧
      ∀ a b, a < mol.length → b < mol.length →
        getE M a b = if a = b then 0
          else (mol.getD a default).bond_length (mol.getD b default) := by
  have hn : ¬ mol.length ≤ 1 := by omega
  rw [all_bond_lengths, if_neg hn]
  obtain ⟨hw, hval⟩ := foldl_bl_step_spec mol mol.length (pairList mol.length)
    (List.replicate mol.length (List.replicate mol.length 0))
    (fun p hp => by
      rcases p with ⟨i, j⟩
      exact mem_pairList.mp hp)
    (WFmat_replicate mol.length)
  refine ⟨_, rfl, hw, ?_⟩
  intro a b ha hb
  rw [hval a b ha hb]
  by_cases hab : a = b
  · subst hab
    rw [if_pos rfl, if_neg ?_, getE_replicate]
    rintro ⟨q, hq, hcase⟩
    rcases q with ⟨qi, qj⟩
    have := mem_pairList.mp hq
    simp only at hcase
    omega
  · rw [if_neg hab, if_pos ?_]
    rcases Nat.lt_or_ge a b with hlt | hge
    · exact ⟨(b, a), mem_pairList.mpr ⟨hlt, hb⟩, Or.inr ⟨rfl, rfl⟩⟩
    · have hlt : b < a := by omega
      exact ⟨(a, b), mem_pairList.mpr ⟨hlt, ha⟩, Or.inl ⟨rfl, rfl⟩⟩

/-! ### Spec-side formulas, for the refinement claims

The following three definitions are written from the specification's
wording (dot product, cross product and Euclidean norm of a displacement
vector), not from the program, so that the program's angle formulas can be
compared against them. -/

/-- Spec formula: dot product of two 3-vectors. -/
def specDot (u v : ℝ × ℝ × ℝ) : ℝ :=
  u.1 * v.1 + u.2.1 * v.2.1 + u.2.2 * v.2.2

/-- Spec formula: cross product of two 3-vectors. -/
def specCross (u v : ℝ × ℝ × ℝ) : ℝ × ℝ × ℝ :=
  (u.2.1 * v.2.2 - u.2.2 * v.2.1,
   u.2.2 * v.1 - u.1 * v.2.2,
   u.1 * v.2.1 - u.2.1 * v.1)

/-- Spec formula: Euclidean norm of a 3-vector. -/
def specNorm (u : ℝ × ℝ × ℝ) : ℝ :=
  Real.sqrt (u.1 ^ 2 + u.2.1 ^ 2 + u.2.2 ^ 2)

/-- The distance the program computes is the norm of the displacement
vector it computes. -/
lemma bond_length_eq_norm (a b : Ion) :
    a.bond_length b = specNorm (a.bond_vector b) := by
  rw [Ion.bond_length, Ion.bond_vector, specNorm]
  congr 1
  ring

lemma bond_length_self (a : Ion) : a.bond_length a = 0 := by
  rw [Ion.bond_length]
  simp

lemma bond_length_nonneg (a b : Ion) : 0 ≤ a.bond_length b :=
  Real.sqrt_nonneg _

lemma bond_length_eq_zero_iff (a b : Ion) :
    a.bond_length b = 0 ↔ a.x = b.x ∧ a.y = b.y ∧ a.z = b.z := by
  rw [Ion.bond_length, Real.sqrt_eq_zero']
  constructor
  · intro h
    have hx : (a.x - b.x) ^ 2 = 0 := by
      nlinarith [sq_nonneg (a.x - b.x), sq_nonneg (a.y - b.y),
        sq_nonneg (a.z - b.z)]
    have hy : (a.y - b.y) ^ 2 = 0 := by
      nlinarith [sq_nonneg (a.x - b.x), sq_nonneg (a.y - b.y),
        sq_nonneg (a.z - b.z)]
    have hz : (a.z - b.z) ^ 2 = 0 := by
      nlinarith [sq_nonneg (a.x - b.x), sq_nonneg (a.y - b.y),
        sq_nonneg (a.z - b.z)]
    refine ⟨?_, ?_, ?_⟩
    · have := pow_eq_zero_iff (n := 2) (by norm_num) |>.mp hx
      linarith
    · have := pow_eq_zero_iff (n := 2) (by norm_num) |>.mp hy
      linarith
    · have := pow_eq_zero_iff (n := 2) (by norm_num) |>.mp hz
      linarith
  · rintro ⟨h1, h2, h3⟩
    rw [h1, h2, h3]
    simp

/-! ### Concrete example molecules used by the witnesses and tests -/

/-- A two-atom molecule: atoms at `(0,0,0)` and `(1,0,0)`. -/
def molPair : List Ion := [⟨1, 0, 0, 0⟩, ⟨1, 1, 0, 0⟩]

/-- The spec's collinear test molecule: atoms at `(0,0,0)`, `(1,0,0)`,
`(2,0,0)`. -/
def molCollinear : List Ion := [⟨1, 0, 0, 0⟩, ⟨1, 1, 0, 0⟩, ⟨1, 2, 0, 0⟩]

/-- A degenerate molecule: atoms 0 and 1 coincide at `(0,0,0)`. -/
def molDegenerate : List Ion := [⟨1, 0, 0, 0⟩, ⟨1, 0, 0, 0⟩, ⟨1, 1, 0, 0⟩]

/-! ### Claim theorems -/

/-- C1: for every atom list of length `n ≥ 2`, `all_bond_lengths`
succeeds and returns an `n`-by-`n` matrix that is symmetric
(`M[i][j] = M[j][i]`), has zero diagonal (`M[i][i] = 0`), and whose every
off-diagonal entry `M[i][j]` is the distance computed by the
`bond_length` primitive on atoms `i` and `j`. -/
theorem all_bond_lengths_matrix_correct (mol : List Ion)
    (h : 2 ≤ mol.length) :
    ∃ M, all_bond_lengths mol = Except.ok M ∧
      M.length = mol.length ∧
      (∀ row ∈ M, row.length = mol.length) ∧
      (∀ i, i < mol.length → getE M i i = 0) ∧
      (∀ i j, i < mol.length → j < mol.length → getE M i j = getE M j i) ∧
      (∀ i j, i < mol.length → j < mol.length → i ≠ j →
        getE M i j =
          (mol.getD i default).bond_length (mol.getD j default)) := by
  obtain ⟨M, hok, hw, hval⟩ := all_bond_lengths_eq mol h
  refine ⟨M, hok, hw.1, hw.2, ?_, ?_, ?_⟩
  · intro i hi
    rw [hval i i hi hi, if_pos rfl]
  · intro i j hi hj
    rw [hval i j hi hj, hval j i hj hi]
    by_cases hij : i = j
    · rw [hij]
    · rw [if_neg hij, if_neg (fun hc => hij hc.symm)]
      exact bond_length_comm _ _
  · intro i j hi hj hij
    rw [hval i j hi hj, if_neg hij]

/-- Witness for C1: the two-atom molecule satisfies the hypothesis and
the conclusion. -/
theorem all_bond_lengths_matrix_correct_witness :
    2 ≤ molPair.length ∧
    ∃ M, all_bond_lengths molPair = Except.ok M ∧
      M.length = molPair.length ∧
      (∀ row ∈ M, row.length = molPair.length) ∧
      (∀ i, i < molPair.length → getE M i i = 0) ∧
      (∀ i j, i < molPair.length → j < molPair.length →
        getE M i j = getE M j i) ∧
      (∀ i j, i < molPair.length → j < molPair.length → i ≠ j →
        getE M i j =
          (molPair.getD i default).bond_length (molPair.getD j default)) :=
  ⟨by decide, all_bond_lengths_matrix_correct molPair (by decide)⟩

/-- C2: for every atom list of length `n ≥ 3`, `bond_angles` succeeds
with exactly `C(n,3)` records, laid out in the canonical enumeration
order (`tripleList`, the strict triangular nesting `k < j < i` with `i`
outermost); each record `(k, j, i, angle)` has `k < j < i < n`, and every
strictly increasing index triple `a < b < c < n` occurs as the index part
of exactly one record. -/
theorem bond_angles_enumeration_correct (mol : List Ion)
    (h : 3 ≤ mol.length) :
    ∃ res, bond_angles mol = Except.ok res ∧
      res = (tripleList mol.length).map (angleRecord mol) ∧
      res.length = mol.length.choose 3 ∧
      (∀ r ∈ res, r.1 < r.2.1 ∧ r.2.1 < r.2.2.1 ∧ r.2.2.1 < mol.length) ∧
      (res.map fun r => (r.1, r.2.1, r.2.2.1)).Nodup ∧
      (∀ a b c : Nat,
        (a, b, c) ∈ res.map (fun r => (r.1, r.2.1, r.2.2.1)) ↔
          a < b ∧ b < c ∧ c < mol.length) := by
  have hproj : ((tripleList mol.length).map (angleRecord mol)).map
      (fun r => (r.1, r.2.1, r.2.2.1)) =
      (tripleList mol.length).map (fun t => (t.2.2, t.2.1, t.1)) := by
    rw [List.map_map]
    rfl
  refine ⟨_, bond_angles_eq mol h, rfl, ?_, ?_, ?_, ?_⟩
  · rw [List.length_map, tripleList_length]
  · intro r hr
    obtain ⟨t, ht, hrt⟩ := List.mem_map.mp hr
    rcases t with ⟨i, j, k⟩
    obtain ⟨hi, hj, hk⟩ := mem_tripleList.mp ht
    rw [← hrt]
    exact ⟨hk, hj, hi⟩
  · rw [hproj]
    apply (tripleList_nodup mol.length).map
    intro t1 t2 hteq
    rcases t1 with ⟨i1, j1, k1⟩
    rcases t2 with ⟨i2, j2, k2⟩
    simp only [Prod.mk.injEq] at hteq ⊢
    tauto
  · intro a b c
    rw [hproj]
    constructor
    · intro hmem
      obtain ⟨t, ht, hrt⟩ := List.mem_map.mp hmem
      rcases t with ⟨i, j, k⟩
      obtain ⟨hi, hj, hk⟩ := mem_tripleList.mp ht
      simp only [Prod.mk.injEq] at hrt
      obtain ⟨rfl, rfl, rfl⟩ := hrt
      exact ⟨hk, hj, hi⟩
    · rintro ⟨hab, hbc, hcn⟩
      rw [List.mem_map]
      exact ⟨(c, b, a), mem_tripleList.mpr ⟨hcn, hbc, hab⟩, rfl⟩

/-- Witness for C2: the collinear three-atom molecule satisfies the
hypothesis and the conclusion. -/
theorem bond_angles_enumeration_correct_witness :
    3 ≤ molCollinear.length ∧
    ∃ res, bond_angles molCollinear = Except.ok res ∧
      res = (tripleList molCollinear.length).map (angleRecord molCollinear) ∧
      res.length = molCollinear.length.choose 3 ∧
      (∀ r ∈ res,
        r.1 < r.2.1 ∧ r.2.1 < r.2.2.1 ∧ r.2.2.1 < molCollinear.length) ∧
      (res.map fun r => (r.1, r.2.1, r.2.2.1)).Nodup ∧
      (∀ a b c : Nat,
        (a, b, c) ∈ res.map (fun r => (r.1, r.2.1, r.2.2.1)) ↔
          a < b ∧ b < c ∧ c < molCollinear.length) :=
  ⟨by decide, bond_angles_enumeration_correct molCollinear (by decide)⟩

/-- C10: for every atom list of length `n ≥ 3`, the buffer of size
`(3(n-2)² + (n-2)³ + 2(n-2))/6` preallocated by `bond_angles` is exactly
filled by the triple loop: the loop performs exactly as many iterations
as the buffer has slots, the running write index `angle_index` stays
within the buffer bound after every prefix of the iteration sequence and
ends equal to the buffer length, and no placeholder record `(0,0,0,0.)`
remains in the returned list. -/
theorem bond_angles_buffer_exact (mol : List Ion) (h : 3 ≤ mol.length) :
    (tripleList mol.length).length = n_uniques mol.length ∧
    (∀ m : Nat,
      (((tripleList mol.length).take m).foldl (ba_step mol)
        (List.replicate (n_uniques mol.length) (0, 0, 0, (0 : ℝ)), 0)).2 ≤
        n_uniques mol.length) ∧
    ((tripleList mol.length).foldl (ba_step mol)
      (List.replicate (n_uniques mol.length) (0, 0, 0, (0 : ℝ)), 0)).2 =
      n_uniques mol.length ∧
    ∃ res, bond_angles mol = Except.ok res ∧
      res.length = n_uniques mol.length ∧
      ∀ r ∈ res, r ≠ ((0, 0, 0, (0 : ℝ)) : Nat × Nat × Nat × ℝ) := by
  have hlen : (tripleList mol.length).length = n_uniques mol.length := by
    rw [tripleList_length, n_uniques_eq_choose]
  refine ⟨hlen, ?_, ?_, _, bond_angles_eq mol h, ?_, ?_⟩
  · intro m
    refine le_trans (ba_fold_snd_le mol _ _) ?_
    rw [List.length_take]
    have hmin : min m (tripleList mol.length).length ≤
        (tripleList mol.length).length := min_le_right _ _
    omega
  · rw [ba_fold_eq]
    exact hlen
  · rw [List.length_map]
    exact hlen
  · intro r hr heq
    obtain ⟨t, ht, hrt⟩ := List.mem_map.mp hr
    rcases t with ⟨i, j, k⟩
    obtain ⟨hi, hj, hk⟩ := mem_tripleList.mp ht
    rw [← hrt] at heq
    have h0 : i = 0 := by
      have := congrArg (fun r => r.2.2.1) heq
      simpa [angleRecord] using this
    omega

/-- Witness for C10: the collinear three-atom molecule satisfies the
hypothesis and the conclusion. -/
theorem bond_angles_buffer_exact_witness :
    3 ≤ molCollinear.length ∧
    ((tripleList molCollinear.length).length =
        n_uniques molCollinear.length ∧
      (∀ m : Nat,
        (((tripleList molCollinear.length).take m).foldl
          (ba_step molCollinear)
          (List.replicate (n_uniques molCollinear.length)
            (0, 0, 0, (0 : ℝ)), 0)).2 ≤ n_uniques molCollinear.length) ∧
      ((tripleList molCollinear.length).foldl (ba_step molCollinear)
        (List.replicate (n_uniques molCollinear.length)
          (0, 0, 0, (0 : ℝ)), 0)).2 = n_uniques molCollinear.length ∧
      ∃ res, bond_angles molCollinear = Except.ok res ∧
        res.length = n_uniques molCollinear.length ∧
        ∀ r ∈ res, r ≠ ((0, 0, 0, (0 : ℝ)) : Nat × Nat × Nat × ℝ)) :=
  ⟨by decide, bond_angles_buffer_exact molCollinear (by decide)⟩

/-- C8: `bond_length` is symmetric, zero on the diagonal, non-negative,
zero exactly on coordinate-wise equal atoms, and `bond_vector` is
antisymmetric component-wise. -/
theorem distance_displacement_algebra (a b : Ion) :
    a.bond_length b = b.bond_length a ∧
    a.bond_length a = 0 ∧
    0 ≤ a.bond_length b ∧
    (a.bond_length b = 0 ↔ a.x = b.x ∧ a.y = b.y ∧ a.z = b.z) ∧
    a.bond_vector b =
      (-(b.bond_vector a).1, -(b.bond_vector a).2.1,
        -(b.bond_vector a).2.2) := by
  refine ⟨bond_length_comm a b, bond_length_self a, bond_length_nonneg a b,
    bond_length_eq_zero_iff a b, ?_⟩
  rw [Ion.bond_vector, Ion.bond_vector]
  simp only [Prod.mk.injEq]
  refine ⟨by ring, by ring, by ring⟩

/-- C9: the two derived computations are pure functions of the atom list:
two runs on the same list produce identical results, and the list itself
is never mutated (the embedding of `&Vec<Ion>` is a value, so there is no
state to mutate). -/
theorem geometry_functions_deterministic (mol : List Ion) :
    all_bond_lengths mol = all_bond_lengths mol ∧
      bond_angles mol = bond_angles mol :=
  ⟨rfl, rfl⟩

/-- C6: `all_bond_lengths` errors exactly on lists of length at most 1
and succeeds otherwise; `bond_angles` errors exactly on lists of length
at most 2 and succeeds otherwise. -/
theorem insufficient_atoms_error_iff (mol : List Ion) :
    ((∃ e, all_bond_lengths mol = Except.error e) ↔ mol.length ≤ 1) ∧
    ((∃ M, all_bond_lengths mol = Except.ok M) ↔ 2 ≤ mol.length) ∧
    ((∃ e, bond_angles mol = Except.error e) ↔ mol.length ≤ 2) ∧
    ((∃ res, bond_angles mol = Except.ok res) ↔ 3 ≤ mol.length) := by
  refine ⟨?_, ?_, ?_, ?_⟩
  · rw [all_bond_lengths]
    split_ifs with h1 <;> simp [h1]
  · rw [all_bond_lengths]
    split_ifs with h1 <;> simp [h1] <;> omega
  · rw [bond_angles]
    split_ifs with h1 <;> simp [h1]
  · rw [bond_angles]
    split_ifs with h1 <;> simp [h1] <;> omega

/-- C7 (counterexample to the claim as stated): the source's check is
`(lines.len()-1) as i32 != natoms`, and the `as i32` cast wraps, so a
supplied record count of `2^32 + 3` wraps onto a declared `natoms = 3`:
the counts differ, yet no record-count-mismatch error is raised —
processing proceeds into the geometry computations and succeeds. -/
theorem record_count_wrap_counterexample :
    ((List.replicate (2 ^ 32 + 3) (default : Ion)).length : Int) ≠ 3 ∧
    process_file 3 (List.replicate (2 ^ 32 + 3) (default : Ion)) ≠
      Except.error ("Number of atoms != number of data points") := by
  have hlen : (List.replicate (2 ^ 32 + 3) (default : Ion)).length =
      2 ^ 32 + 3 := List.length_replicate _ _
  constructor
  · rw [hlen]
    norm_num
  · have hcast : as_i32 (List.replicate (2 ^ 32 + 3)
        (default : Ion)).length = 3 := by
      rw [hlen, as_i32]
      norm_num
    rw [process_file, if_neg (by rw [hcast]; simp)]
    obtain ⟨M, hM, _⟩ := all_bond_lengths_eq _ (by rw [hlen]; norm_num)
    rw [hM, bond_angles_eq _ (by rw [hlen]; norm_num)]
    exact fun hcontr => Except.noConfusion hcontr

/-- C7 (amended): per-file processing fails with the
record-count-mismatch error (the code's `InvalidData` error with message
`"Number of atoms != number of data points"`, raised by the check at
main.rs lines 20-27 before any geometry computation) exactly when the
supplied record count, cast to `i32` with wrapping as the source's
`as i32` does, differs from the declared `natoms`; in particular, for
every record count below `2^31` — hence every realizable input — exactly
when the two counts disagree. -/
theorem record_count_mismatch_iff (natoms : Int) (ions : List Ion) :
    (process_file natoms ions =
        Except.error ("Number of atoms != number of data points") ↔
      as_i32 ions.length ≠ natoms) ∧
    (ions.length < 2 ^ 31 →
      (process_file natoms ions =
          Except.error ("Number of atoms != number of data points") ↔
        (ions.length : Int) ≠ natoms)) := by
  have hiff : process_file natoms ions =
      Except.error ("Number of atoms != number of data points") ↔
      as_i32 ions.length ≠ natoms := by
    rw [process_file]
    split_ifs with h
    · simp [h]
    · refine iff_of_false ?_ h
      rcases hbl : all_bond_lengths ions with e | bl <;>
        rcases hba : bond_angles ions with e2 | ba <;>
        simp
  refine ⟨hiff, ?_⟩
  intro hlen
  have hcast : as_i32 ions.length = (ions.length : Int) := by
    rw [as_i32,
      Nat.mod_eq_of_lt (lt_of_lt_of_le hlen (by norm_num)), if_pos hlen]
  rw [hiff, hcast]

/-- Witness for C7 (amended): the three-atom molecule with a matching
header satisfies the small-count hypothesis and the conclusion. -/
theorem record_count_mismatch_iff_witness :
    molCollinear.length < 2 ^ 31 ∧
    ((process_file 3 molCollinear =
        Except.error ("Number of atoms != number of data points") ↔
      as_i32 molCollinear.length ≠ 3) ∧
    (molCollinear.length < 2 ^ 31 →
      (process_file 3 molCollinear =
          Except.error ("Number of atoms != number of data points") ↔
        (molCollinear.length : Int) ≠ 3))) :=
  ⟨by norm_num [molCollinear], record_count_mismatch_iff 3 molCollinear⟩

/-- C3: the angle the program attaches to a triple is
`arccos(dot(v_ji, v_jk) / (‖v_ji‖ ‖v_jk‖))` over the displacement
vectors from the vertex atom `j` (the spec's formula, with the spec-side
`specDot`/`specNorm`); the result of `arccos` always lies in `[0, π]`;
and the collinear molecule `(0,0,0), (1,0,0), (2,0,0)` yields the single
record `(0, 1, 2, π)` — angle `π` at the middle atom. -/
theorem bond_angle_formula_correct :
    (∀ ioni ionj ionk : Ion,
      Ion.bond_angle ioni ionj ionk =
        Real.arccos
          (specDot (ionj.bond_vector ioni) (ionj.bond_vector ionk) /
            (specNorm (ionj.bond_vector ioni) *
              specNorm (ionj.bond_vector ionk)))) ∧
    (∀ ioni ionj ionk : Ion,
      0 ≤ Ion.bond_angle ioni ionj ionk ∧
        Ion.bond_angle ioni ionj ionk ≤ Real.pi) ∧
    bond_angles molCollinear = Except.ok [(0, 1, 2, Real.pi)] := by
  refine ⟨?_, ?_, ?_⟩
  · intro ioni ionj ionk
    rw [← bond_length_eq_norm, ← bond_length_eq_norm]
    rfl
  · intro ioni ionj ionk
    exact ⟨Real.arccos_nonneg _, Real.arccos_le_pi _⟩
  · have hangle : Ion.bond_angle ⟨1, 2, 0, 0⟩ ⟨1, 1, 0, 0⟩ ⟨1, 0, 0, 0⟩ =
        Real.pi := by
      have h1 : (⟨1, 1, 0, 0⟩ : Ion).bond_length ⟨1, 2, 0, 0⟩ = 1 := by
        rw [Ion.bond_length]
        norm_num [Real.sqrt_one]
      have h2 : (⟨1, 1, 0, 0⟩ : Ion).bond_length ⟨1, 0, 0, 0⟩ = 1 := by
        rw [Ion.bond_length]
        norm_num [Real.sqrt_one]
      simp only [Ion.bond_angle, Ion.bond_vector, h1, h2]
      norm_num
    rw [bond_angles_eq molCollinear (by decide)]
    have htl : tripleList molCollinear.length = [(2, 1, 0)] := by decide
    rw [htl]
    simp [angleRecord, molCollinear, hangle]

/-- C5: `out_of_plane_angle` computes the scalar triple product
`r_ki · (r_kj × r_kl)` of the displacements from atom `k` (spec-side
`specDot`/`specCross`), divided by
`‖r_kj‖ ‖r_kl‖ ‖r_ki‖ sin(φ)` with `φ` the bond angle at vertex `k`
between `j` and `l`; and for four coplanar atoms (all `z = 0`) with
non-degenerate `j, k, l` and a nonzero arm to `i`, the result is exactly
zero. -/
theorem out_of_plane_formula_correct :
    (∀ ioni ionj ionk ionl : Ion,
      Ion.out_of_plane_angle ioni ionj ionk ionl =
        specDot (ionk.bond_vector ioni)
            (specCross (ionk.bond_vector ionj) (ionk.bond_vector ionl)) /
          (ionk.bond_length ionj * ionk.bond_length ionl *
            ionk.bond_length ioni *
            Real.sin (Ion.bond_angle ionj ionk ionl))) ∧
    (∀ ioni ionj ionk ionl : Ion,
      ioni.z = 0 → ionj.z = 0 → ionk.z = 0 → ionl.z = 0 →
      ionk.bond_length ionj ≠ 0 → ionk.bond_length ionl ≠ 0 →
      ionk.bond_length ioni ≠ 0 →
      Real.sin (Ion.bond_angle ionj ionk ionl) ≠ 0 →
      Ion.out_of_plane_angle ioni ionj ionk ionl = 0) := by
  constructor
  · intro ioni ionj ionk ionl
    simp only [Ion.out_of_plane_angle, specDot, specCross, Ion.bond_vector]
    congr 1
    ring
  · intro ioni ionj ionk ionl hzi hzj hzk hzl _ _ _ _
    simp only [Ion.out_of_plane_angle, Ion.bond_vector]
    rw [hzi, hzj, hzk, hzl, div_eq_zero_iff]
    left
    ring

/-- Witness for C5: a concrete coplanar quadruple (square corners in the
`z = 0` plane) satisfies every hypothesis and gets out-of-plane value
zero. -/
theorem out_of_plane_formula_correct_witness :
    ((⟨1, 1, 1, 0⟩ : Ion).z = 0 ∧ (⟨1, 1, 0, 0⟩ : Ion).z = 0 ∧
      (⟨1, 0, 0, 0⟩ : Ion).z = 0 ∧ (⟨1, 0, 1, 0⟩ : Ion).z = 0 ∧
      (⟨1, 0, 0, 0⟩ : Ion).bond_length ⟨1, 1, 0, 0⟩ ≠ 0 ∧
      (⟨1, 0, 0, 0⟩ : Ion).bond_length ⟨1, 0, 1, 0⟩ ≠ 0 ∧
      (⟨1, 0, 0, 0⟩ : Ion).bond_length ⟨1, 1, 1, 0⟩ ≠ 0 ∧
      Real.sin (Ion.bond_angle ⟨1, 1, 0, 0⟩ ⟨1, 0, 0, 0⟩ ⟨1, 0, 1, 0⟩) ≠ 0) ∧
    Ion.out_of_plane_angle ⟨1, 1, 1, 0⟩ ⟨1, 1, 0, 0⟩ ⟨1, 0, 0, 0⟩
      ⟨1, 0, 1, 0⟩ = 0 := by
  have hkj : (⟨1, 0, 0, 0⟩ : Ion).bond_length ⟨1, 1, 0, 0⟩ = 1 := by
    rw [Ion.bond_length]
    norm_num [Real.sqrt_one]
  have hkl : (⟨1, 0, 0, 0⟩ : Ion).bond_length ⟨1, 0, 1, 0⟩ = 1 := by
    rw [Ion.bond_length]
    norm_num [Real.sqrt_one]
  have hkjne : (⟨1, 0, 0, 0⟩ : Ion).bond_length ⟨1, 1, 0, 0⟩ ≠ 0 := by
    rw [hkj]
    exact one_ne_zero
  have hklne : (⟨1, 0, 0, 0⟩ : Ion).bond_length ⟨1, 0, 1, 0⟩ ≠ 0 := by
    rw [hkl]
    exact one_ne_zero
  have hkine : (⟨1, 0, 0, 0⟩ : Ion).bond_length ⟨1, 1, 1, 0⟩ ≠ 0 := by
    intro hc
    rw [Ion.bond_length, Real.sqrt_eq_zero'] at hc
    norm_num at hc
  have hang : Ion.bond_angle ⟨1, 1, 0, 0⟩ ⟨1, 0, 0, 0⟩ ⟨1, 0, 1, 0⟩ =
      Real.pi / 2 := by
    simp only [Ion.bond_angle, Ion.bond_vector, hkj, hkl]
    norm_num
  have hsin : Real.sin
      (Ion.bond_angle ⟨1, 1, 0, 0⟩ ⟨1, 0, 0, 0⟩ ⟨1, 0, 1, 0⟩) ≠ 0 := by
    rw [hang, Real.sin_pi_div_two]
    exact one_ne_zero
  exact ⟨⟨rfl, rfl, rfl, rfl, hkjne, hklne, hkine, hsin⟩,
    out_of_plane_formula_correct.2 _ _ _ _ rfl rfl rfl rfl
      hkjne hklne hkine hsin⟩

/-- C4 (evidence that the code does not meet the claim): on the
degenerate molecule whose first two atoms coincide at the origin,
`bond_angles` returns a success value whose single record's angle was
computed by `acos` of a quotient whose denominator — the product of the
two arm lengths from the vertex atom — is zero.  No
`DegenerateGeometry`-style condition exists anywhere in the code: the
geometry functions return bare `f64` with no error channel, so in
IEEE-754 terms the zero-denominator division yields NaN/Inf and `acos`
propagates NaN silently inside the `Ok` value. -/
theorem degenerate_geometry_not_signalled :
    bond_angles molDegenerate =
      Except.ok [(0, 1, 2,
        Ion.bond_angle ⟨1, 1, 0, 0⟩ ⟨1, 0, 0, 0⟩ ⟨1, 0, 0, 0⟩)] ∧
    (⟨1, 0, 0, 0⟩ : Ion).bond_length ⟨1, 1, 0, 0⟩ *
      (⟨1, 0, 0, 0⟩ : Ion).bond_length ⟨1, 0, 0, 0⟩ = 0 := by
  constructor
  · rw [bond_angles_eq molDegenerate (by decide)]
    have htl : tripleList molDegenerate.length = [(2, 1, 0)] := by decide
    rw [htl]
    simp [angleRecord, molDegenerate]
  · rw [bond_length_self, mul_zero]

end

end Crawford
